import Mathlib

/-!
Verification of the text-to-table reconstruction core of spreadsheet-ocr
(src/src/app/components/SpreadsheetOCR.js), as a shallow embedding.

The embedded operations are the pure text-processing part of processImage
(line splitting, header normalization, row building) and exportToCSV.
JavaScript strings are modelled as Lean String, JavaScript plain objects
as insertion-ordered association lists with in-place update on existing
keys, and JS regex / string library calls are reproduced char-by-char.
-/

namespace SpreadsheetOCR

/-- Characters matched by the JavaScript regex class \s (and removed by
String.prototype.trim): tab, LF, VT, FF, CR, space, NBSP, Ogham space,
the U+2000..U+200A range, LS, PS, NNBSP, MMSP, ideographic space, BOM. -/
def jsWS (c : Char) : Bool :=
  decide (c.toNat = 9 ∨ c.toNat = 10 ∨ c.toNat = 11 ∨ c.toNat = 12 ∨ c.toNat = 13
    ∨ c.toNat = 32 ∨ c.toNat = 160 ∨ c.toNat = 5760
    ∨ (8192 ≤ c.toNat ∧ c.toNat ≤ 8202)
    ∨ c.toNat = 8232 ∨ c.toNat = 8233 ∨ c.toNat = 8239 ∨ c.toNat = 8287
    ∨ c.toNat = 12288 ∨ c.toNat = 65279)

/-- JS s.split(sep) for a one-character separator string: split at every
occurrence of sep, keeping empty segments; the empty string gives one
empty segment. -/
def splitChar (sep : Char) : List Char → List (List Char)
  | [] => [[]]
  | c :: cs =>
    if c = sep then [] :: splitChar sep cs
    else
      match splitChar sep cs with
      | [] => [[c]]
      | f :: fs => (c :: f) :: fs

/-- JS s.split(regex-of-one-or-more-p-chars): the fields between maximal
runs of characters satisfying p. A leading run yields an initial empty
field and a trailing run a trailing empty field, exactly as in JS. -/
def splitRuns (p : Char → Bool) : List Char → List (List Char)
  | [] => [[]]
  | c :: cs =>
    if p c then
      match cs with
      | [] => [] :: splitRuns p cs
      | d :: _ => if p d then splitRuns p cs else [] :: splitRuns p cs
    else
      match splitRuns p cs with
      | [] => [[c]]
      | f :: fs => (c :: f) :: fs

/-- JS String.prototype.trim on a character list. -/
def trimEnds (l : List Char) : List Char :=
  ((l.dropWhile jsWS).reverse.dropWhile jsWS).reverse

/-- JS String.prototype.toLowerCase, restricted to the ASCII mapping
(the OCR character whitelist in the source is ASCII-only): an uppercase
letter moves down to its lowercase counterpart, everything else is
unchanged. -/
def jsToLower (c : Char) : Char :=
  if 65 ≤ c.toNat ∧ c.toNat ≤ 90 then Char.ofNat (c.toNat + 32) else c

/-- JS s.replace(regex-of-one-or-more-whitespace, single underscore):
every maximal whitespace run becomes one underscore. -/
def collapseWs : List Char → List Char
  | [] => []
  | c :: cs =>
    if jsWS c then
      match cs with
      | [] => ['_']
      | d :: _ => if jsWS d then collapseWs cs else '_' :: collapseWs cs
    else c :: collapseWs cs

/-- The header-normalization chain of the source:
header.trim().toLowerCase().replace(whitespace-runs, underscore). -/
def normalizeHeader (s : String) : String :=
  String.mk (collapseWs ((trimEnds s.toList).map jsToLower))

/-- JS line.split(regex-one-or-more-whitespace) on a string. -/
def splitWs (s : String) : List String :=
  (splitRuns jsWS s.toList).map String.mk

/-- lines[0].split(ws).map(normalize).filter(Boolean) of the source. -/
def lineHeaders (line : String) : List String :=
  ((splitWs line).map normalizeHeader).filter (fun h => h != "")

/-- line.split(ws).filter(Boolean) of the source: the Tokens of a Line
(maximal runs of non-whitespace characters). -/
def lineValues (line : String) : List String :=
  (splitWs line).filter (fun v => v != "")

/-- Truthiness test used by the source filters: line.trim() is falsy
exactly when every character of the line is whitespace. -/
def isBlank (s : String) : Bool :=
  s.toList.all jsWS

/-- text.split(newline).filter(line falsy-trim test) of the source. -/
def nonBlankLines (text : String) : List String :=
  ((splitChar '\n' text.toList).map String.mk).filter (fun l => !(isBlank l))

/-- A JavaScript plain object with string values, as an insertion-ordered
association list; keys are unique by construction through objSet. -/
abbrev JsObj := List (String × String)

/-- JS property write o[k] = v: update in place when the key exists
(preserving its position), otherwise append the new key at the end. -/
def objSet (o : JsObj) (k v : String) : JsObj :=
  if o.any (fun p => p.1 == k) then
    o.map (fun p => if p.1 == k then (k, v) else p)
  else o ++ [(k, v)]

/-- JS property read o[k], as an Option. -/
def objGet (o : JsObj) (k : String) : Option String :=
  (o.find? (fun p => p.1 == k)).map Prod.snd

/-- The source's row[header] followed by the defaulting idiom
(value or empty string): a missing property reads as the empty string. -/
def objGetOr (o : JsObj) (k : String) : String :=
  (objGet o k).getD ""

/-- headers.forEach((header, index) => row[header] = values[index] or
empty string), carried out from position i on accumulator o. The source's
values[index] is undefined past the end, and (undefined or empty) is the
empty string, which List.getD reproduces (tokens are never themselves
empty, having been filtered). -/
def buildRowAux (values : List String) : List String → Nat → JsObj → JsObj
  | [], _, o => o
  | h :: hs, i, o => buildRowAux values hs (i + 1) (objSet o h (values.getD i ""))

/-- The full loop building one Record from the header keys and the
Tokens of one data Line. -/
def buildRow (headers values : List String) : JsObj :=
  buildRowAux values headers 0 []

/-- lines.slice(1).filter(non-blank).map(build row).filter(some value
truthy) of the source: Object.values enumerates the stored values, and
the some() test only asks whether any value is a non-empty string. -/
def buildRows (headers : List String) (dataLines : List String) : List JsObj :=
  ((dataLines.filter (fun l => !(isBlank l))).map
      (fun line => buildRow headers (lineValues line))).filter
    (fun row => (row.map Prod.snd).any (fun v => v != ""))

/-- The text-processing tail of processImage: split into non-blank lines,
derive headers from the first, build the data rows from the rest. When
every line is blank, lines[0] is undefined and lines[0].split throws a
TypeError in the source (caught by processImage's catch-all, which
reports a generic error and stores no table); that branch is none. -/
def processText (text : String) : Option (List String × List JsObj) :=
  match nonBlankLines text with
  | [] => none
  | first :: rest => some (lineHeaders first, buildRows (lineHeaders first) rest)

/-- Whether a string is a canonical array-index property key in the sense
of the ECMAScript object model: the canonical decimal numeral of an
integer below 2^32 - 1 (digits only, no leading zero except in the
single digit zero itself). Such keys are enumerated first, in ascending
numeric order, by Object.keys. -/
def isArrayIndexKey (s : String) : Bool :=
  match s.toList with
  | [] => false
  | c :: cs =>
    (c :: cs).all Char.isDigit
      && (decide (c ≠ '0') || cs.isEmpty)
      && decide ((c :: cs).foldl (fun a ch => a * 10 + (ch.toNat - 48)) 0 < 4294967295)

/-- Numeric value of a digit-string key, for the Object.keys ordering. -/
def keyNat (s : String) : Nat :=
  s.toList.foldl (fun a ch => a * 10 + (ch.toNat - 48)) 0

/-- Insert a key into a list sorted by ascending numeric value. -/
def insNat (x : String) : List String → List String
  | [] => [x]
  | y :: ys => if keyNat x ≤ keyNat y then x :: y :: ys else y :: insNat x ys

/-- Insertion sort by ascending numeric key value. -/
def sortNatKeys : List String → List String
  | [] => []
  | x :: xs => insNat x (sortNatKeys xs)

/-- JS Object.keys: array-index-like keys first in ascending numeric
order, then the remaining string keys in insertion order. -/
def objectKeys (o : JsObj) : List String :=
  sortNatKeys ((o.map Prod.fst).filter isArrayIndexKey)
    ++ (o.map Prod.fst).filter (fun k => !(isArrayIndexKey k))

/-- Lowercase hexadecimal digit, as emitted by JSON.stringify escapes. -/
def hexDigit (n : Nat) : Char :=
  Char.ofNat (if n < 10 then 48 + n else 87 + n)

/-- The escaping JSON.stringify applies to one character of a string:
quote and backslash get a backslash escape, the named control characters
get their two-character escapes, other control characters a unicode
escape, and everything else passes through unchanged. -/
def jsonEscapeChar (c : Char) : List Char :=
  if c = '"' then ['\\', '"']
  else if c = '\\' then ['\\', '\\']
  else if c = '\x08' then ['\\', 'b']
  else if c = '\x0c' then ['\\', 'f']
  else if c = '\n' then ['\\', 'n']
  else if c = '\r' then ['\\', 'r']
  else if c = '\t' then ['\\', 't']
  else if c.toNat < 32 then
    ['\\', 'u', '0', '0', hexDigit (c.toNat / 16), hexDigit (c.toNat % 16)]
  else [c]

/-- JSON.stringify of a string value: the escaped characters wrapped in
double quotes. -/
def jsonStringify (s : String) : String :=
  String.mk ('"' :: ((s.toList.map jsonEscapeChar).flatten ++ ['"']))

/-- JS array.join(sep) for a one-character separator, on char lists. -/
def joinSep (sep : Char) : List (List Char) → List Char
  | [] => []
  | [p] => p
  | p :: ps => p ++ sep :: joinSep sep ps

/-- JS array.join(sep) on strings. -/
def jsJoin (sep : Char) (parts : List String) : String :=
  String.mk (joinSep sep (parts.map String.toList))

/-- The csvContent expression of exportToCSV: the keys of the first row
joined by commas, then one line per row with every value (or empty
string default) passed through JSON.stringify and joined by commas, all
joined by newlines. -/
def csvContent (r0 : JsObj) (rest : List JsObj) : String :=
  jsJoin '\n'
    (jsJoin ',' (objectKeys r0) ::
      (r0 :: rest).map (fun row =>
        jsJoin ',' ((objectKeys r0).map (fun h => jsonStringify (objGetOr row h)))))

/-- Outcome of an exportToCSV call: the guard's silent early return, the
TypeError thrown by Object.keys(extractedData[0]) on an empty array, or
the produced CSV payload handed to the Blob. -/
inductive ExportResult where
  | noop : ExportResult
  | typeError : ExportResult
  | payload : String → ExportResult
deriving DecidableEq

/-- exportToCSV: extractedData is null before any successful OCR run
(early return); an empty array passes the falsiness guard, whereupon
extractedData[0] is undefined and Object.keys throws; otherwise the CSV
payload is assembled. -/
def exportToCSV (extractedData : Option (List JsObj)) : ExportResult :=
  match extractedData with
  | none => ExportResult.noop
  | some [] => ExportResult.typeError
  | some (r0 :: rest) => ExportResult.payload (csvContent r0 rest)

/-- Strip one pair of surrounding double quotes from a field, when both
are present. This operation is part of the re-tokenization procedure the
spec describes for the round-trip property, not a source function. -/
def stripQuotes (s : String) : String :=
  match s.toList with
  | [] => s
  | c :: rest =>
    if c = '"' ∧ rest.getLast? = some '"' then String.mk rest.dropLast else s

/-- The re-tokenization the spec's round-trip property describes: split
the payload into lines, drop the header line, split each remaining line
on commas and strip the surrounding quotes from each field. -/
def retokenizeCSV (payload : String) : List (List String) :=
  (((splitChar '\n' payload.toList).map String.mk).drop 1).map
    (fun line => ((splitChar ',' line.toList).map String.mk).map stripQuotes)

/-- Plain alphanumeric character (ASCII letter or digit), the content
class for which the spec asserts the export round-trip. -/
def plainAlnum (c : Char) : Bool :=
  (decide (97 ≤ c.toNat) && decide (c.toNat ≤ 122))
    || (decide (65 ≤ c.toNat) && decide (c.toNat ≤ 90))
    || (decide (48 ≤ c.toNat) && decide (c.toNat ≤ 57))

/-- The association list a row-building loop over pairwise-distinct
headers produces: key i maps to values[n + i] (or the empty string past
the end), in header order. Proof-side description of buildRowAux. -/
def rowOf (values : List String) : List String → Nat → JsObj
  | [], _ => []
  | h :: hs, i => (h, values.getD i "") :: rowOf values hs (i + 1)

/-- Unfolding equation of splitRuns at the empty list. -/
theorem splitRuns_nil (p : Char → Bool) : splitRuns p [] = [[]] := rfl

/-- Unfolding equation of splitRuns at a one-character list. -/
theorem splitRuns_singleton (p : Char → Bool) (c : Char) :
    splitRuns p [c] = if p c then [[], []] else [[c]] := rfl

/-- Unfolding equation of splitRuns at a list of two or more characters. -/
theorem splitRuns_cons₂ (p : Char → Bool) (c d : Char) (cs : List Char) :
    splitRuns p (c :: d :: cs) =
      if p c then
        (if p d then splitRuns p (d :: cs) else [] :: splitRuns p (d :: cs))
      else
        match splitRuns p (d :: cs) with
        | [] => [[c]]
        | f :: fs => (c :: f) :: fs := rfl

/-- A run split always yields at least one field. -/
theorem splitRuns_ne_nil (p : Char → Bool) (l : List Char) : splitRuns p l ≠ [] := by
  induction l with
  | nil => rw [splitRuns_nil]; simp
  | cons c cs ih =>
    cases cs with
    | nil =>
      rw [splitRuns_singleton]
      by_cases h : p c <;> simp [h]
    | cons d ds =>
      rw [splitRuns_cons₂]
      by_cases h : p c
      · by_cases hd : p d
        · simpa [h, hd] using ih
        · simp [h, hd]
      · simp only [if_neg h]
        rcases hr : splitRuns p (d :: ds) with _ | ⟨f, fs⟩ <;> simp

/-- Characters inside a field of a run split never satisfy the
separator predicate. -/
theorem mem_splitRuns (p : Char → Bool) (l : List Char) :
    ∀ f ∈ splitRuns p l, ∀ c ∈ f, p c = false := by
  induction l with
  | nil => rw [splitRuns_nil]; simp
  | cons c cs ih =>
    cases cs with
    | nil =>
      rw [splitRuns_singleton]
      by_cases h : p c
      · simp [h]
      · simp only [if_neg h]
        intro f hf x hx
        rcases List.mem_cons.mp hf with rfl | hf
        · rcases List.mem_cons.mp hx with rfl | hx
          · exact Bool.eq_false_iff.mpr h
          · simp at hx
        · simp at hf
    | cons d ds =>
      rw [splitRuns_cons₂]
      by_cases h : p c
      · by_cases hd : p d
        · simpa [h, hd] using ih
        · simp only [if_pos h, if_neg hd]
          intro f hf x hx
          rcases List.mem_cons.mp hf with rfl | hf
          · simp at hx
          · exact ih f hf x hx
      · simp only [if_neg h]
        rcases hr : splitRuns p (d :: ds) with _ | ⟨f, fs⟩
        · exact absurd hr (splitRuns_ne_nil p (d :: ds))
        · intro g hg x hx
          rcases List.mem_cons.mp hg with rfl | hg
          · rcases List.mem_cons.mp hx with rfl | hx
            · exact Bool.eq_false_iff.mpr h
            · exact ih f (by rw [hr]; exact List.mem_cons_self f fs) x hx
          · exact ih g (by rw [hr]; exact List.mem_cons_of_mem f hg) x hx

/-- A list containing a non-separator character splits into fields at
least one of which is nonempty. -/
theorem splitRuns_exists_ne_nil (p : Char → Bool) (l : List Char)
    (h : ∃ c ∈ l, p c = false) : ∃ f ∈ splitRuns p l, f ≠ [] := by
  induction l with
  | nil => simp at h
  | cons c cs ih =>
    by_cases hc : p c
    · have hcs : ∃ x ∈ cs, p x = false := by
        rcases h with ⟨x, hx, hpx⟩
        rcases List.mem_cons.mp hx with rfl | hx
        · exact absurd hc (by simp [hpx])
        · exact ⟨x, hx, hpx⟩
      rcases ih hcs with ⟨f, hf, hne⟩
      cases cs with
      | nil => simp at hcs
      | cons d ds =>
        rw [splitRuns_cons₂]
        by_cases hd : p d
        · simpa [hc, hd] using ⟨f, hf, hne⟩
        · exact ⟨f, by simp only [if_pos hc, if_neg hd]; exact List.mem_cons_of_mem _ hf, hne⟩
    · cases cs with
      | nil =>
        rw [splitRuns_singleton, if_neg hc]
        exact ⟨[c], by simp, by simp⟩
      | cons d ds =>
        rw [splitRuns_cons₂]
        simp only [if_neg hc]
        rcases hr : splitRuns p (d :: ds) with _ | ⟨f, fs⟩
        · exact absurd hr (splitRuns_ne_nil p (d :: ds))
        · exact ⟨c :: f, List.mem_cons_self _ _, by simp⟩

/-- A character split always yields at least one field. -/
theorem splitChar_ne_nil (sep : Char) (l : List Char) : splitChar sep l ≠ [] := by
  induction l with
  | nil => simp [splitChar]
  | cons c cs ih =>
    rw [splitChar]
    by_cases h : c = sep
    · simp [h]
    · simp only [if_neg h]
      rcases hr : splitChar sep cs with _ | ⟨f, fs⟩ <;> simp

/-- A list free of the separator character is a single field. -/
theorem splitChar_of_not_mem (sep : Char) (l : List Char) (h : sep ∉ l) :
    splitChar sep l = [l] := by
  induction l with
  | nil => rfl
  | cons c cs ih =>
    rw [splitChar]
    have hc : ¬ c = sep := fun e => h (e ▸ List.mem_cons_self c cs)
    rw [if_neg hc, ih (fun e => h (List.mem_cons_of_mem c e))]

/-- Splitting peels off a separator-free prefix before a separator. -/
theorem splitChar_append (sep : Char) (f t : List Char) (h : sep ∉ f) :
    splitChar sep (f ++ sep :: t) = f :: splitChar sep t := by
  induction f with
  | nil => simp [splitChar]
  | cons c cs ih =>
    have hc : ¬ c = sep := fun e => h (e ▸ List.mem_cons_self c cs)
    have ih' := ih (fun e => h (List.mem_cons_of_mem c e))
    rw [List.cons_append, splitChar, if_neg hc, ih']

/-- Unfolding equation of joinSep at a singleton field list. -/
theorem joinSep_singleton (sep : Char) (f : List Char) :
    joinSep sep [f] = f := rfl

/-- Unfolding equation of joinSep at a field list of length two or more. -/
theorem joinSep_cons₂ (sep : Char) (f g : List Char) (gs : List (List Char)) :
    joinSep sep (f :: g :: gs) = f ++ sep :: joinSep sep (g :: gs) := rfl

/-- splitChar is a left inverse of joinSep on nonempty lists of
separator-free fields. -/
theorem splitChar_joinSep (sep : Char) (parts : List (List Char))
    (hne : parts ≠ []) (h : ∀ f ∈ parts, sep ∉ f) :
    splitChar sep (joinSep sep parts) = parts := by
  induction parts with
  | nil => exact absurd rfl hne
  | cons f fs ih =>
    cases fs with
    | nil =>
      rw [joinSep_singleton]
      exact splitChar_of_not_mem sep f (h f (List.mem_cons_self f []))
    | cons g gs =>
      rw [joinSep_cons₂, splitChar_append sep f _ (h f (List.mem_cons_self _ _)),
        ih (by simp) (fun x hx => h x (List.mem_cons_of_mem f hx))]

/-- Every character of a join is either the separator or a character of
one of the fields. -/
theorem mem_joinSep (sep : Char) (parts : List (List Char)) (c : Char)
    (hc : c ∈ joinSep sep parts) : c = sep ∨ ∃ f ∈ parts, c ∈ f := by
  induction parts with
  | nil => simp [joinSep] at hc
  | cons f fs ih =>
    cases fs with
    | nil =>
      rw [joinSep_singleton] at hc
      exact Or.inr ⟨f, List.mem_cons_self f [], hc⟩
    | cons g gs =>
      rw [joinSep_cons₂] at hc
      rcases List.mem_append.mp hc with hf | hrest
      · exact Or.inr ⟨f, List.mem_cons_self _ _, hf⟩
      · rcases List.mem_cons.mp hrest with rfl | hj
        · exact Or.inl rfl
        · rcases ih hj with h | ⟨x, hx, hcx⟩
          · exact Or.inl h
          · exact Or.inr ⟨x, List.mem_cons_of_mem f hx, hcx⟩

/-- Writing a fresh key appends it at the end of the object. -/
theorem objSet_not_mem (o : JsObj) (k v : String) (h : k ∉ o.map Prod.fst) :
    objSet o k v = o ++ [(k, v)] := by
  rw [objSet, if_neg]
  simp only [List.any_eq_true, beq_iff_eq, not_exists, not_and]
  intro p hp e
  exact h (List.mem_map.mpr ⟨p, hp, e⟩)

/-- The key list after a write: unchanged when the key was present,
otherwise extended by the new key at the end. -/
theorem keys_objSet (o : JsObj) (k v : String) :
    (objSet o k v).map Prod.fst =
      if o.any (fun p => p.1 == k) then o.map Prod.fst else o.map Prod.fst ++ [k] := by
  rw [objSet]
  by_cases h : o.any (fun p => p.1 == k)
  · rw [if_pos h, if_pos h, List.map_map]
    refine List.map_congr_left ?_
    intro p _
    by_cases e : p.1 == k
    · simp only [Function.comp_apply, if_pos e]
      exact (beq_iff_eq.mp e).symm
    · simp only [Function.comp_apply, if_neg e]
  · rw [if_neg h, if_neg h, List.map_append]
    rfl

/-- Key membership after a write is old membership or the written key. -/
theorem mem_keys_objSet (o : JsObj) (k v j : String) :
    j ∈ (objSet o k v).map Prod.fst ↔ j ∈ o.map Prod.fst ∨ j = k := by
  rw [keys_objSet]
  by_cases h : o.any (fun p => p.1 == k)
  · rw [if_pos h]
    constructor
    · exact Or.inl
    · rintro (hj | rfl)
      · exact hj
      · rcases List.any_eq_true.mp h with ⟨p, hp, e⟩
        exact List.mem_map.mpr ⟨p, hp, beq_iff_eq.mp e⟩
  · rw [if_neg h]
    simp [List.mem_append]

/-- dropWhile is the identity when no element satisfies the predicate. -/
theorem dropWhile_eq_self_of {α : Type} (p : α → Bool) (l : List α)
    (h : ∀ c ∈ l, p c = false) : l.dropWhile p = l := by
  cases l with
  | nil => rfl
  | cons c cs =>
    rw [List.dropWhile_cons, if_neg]
    simp [h c (List.mem_cons_self c cs)]

/-- Trimming is the identity on whitespace-free character lists. -/
theorem trimEnds_eq_self (l : List Char) (h : ∀ c ∈ l, jsWS c = false) :
    trimEnds l = l := by
  rw [trimEnds, dropWhile_eq_self_of _ _ h,
    dropWhile_eq_self_of _ _ (fun c hc => h c (List.mem_reverse.mp hc)),
    List.reverse_reverse]

/-- Characters in the printable ASCII band are not JS whitespace. -/
theorem jsWS_false_of (c : Char) (h1 : 33 ≤ c.toNat) (h2 : c.toNat ≤ 126) :
    jsWS c = false := by
  unfold jsWS
  rw [decide_eq_false_iff_not]
  omega

/-- Packing a scalar value below the surrogate range round-trips. -/
theorem char_toNat_ofNat (n : Nat) (h : n < 55296) : (Char.ofNat n).toNat = n := by
  have hv : n.isValidChar := Or.inl h
  rw [Char.ofNat, dif_pos hv]
  simp [Char.ofNatAux, Char.toNat, UInt32.toNat]

/-- Lowercasing never turns a character into whitespace or back. -/
theorem jsWS_jsToLower (c : Char) : jsWS (jsToLower c) = jsWS c := by
  unfold jsToLower
  by_cases h : 65 ≤ c.toNat ∧ c.toNat ≤ 90
  · rw [if_pos h]
    have ht : (Char.ofNat (c.toNat + 32)).toNat = c.toNat + 32 :=
      char_toNat_ofNat _ (by omega)
    rw [jsWS_false_of _ (by rw [ht]; omega) (by rw [ht]; omega),
      jsWS_false_of _ (by omega) (by omega)]
  · rw [if_neg h]

/-- Unfolding equation of collapseWs at a one-character list. -/
theorem collapseWs_singleton (c : Char) :
    collapseWs [c] = if jsWS c then ['_'] else [c] := rfl

/-- Unfolding equation of collapseWs at two or more characters. -/
theorem collapseWs_cons₂ (c d : Char) (cs : List Char) :
    collapseWs (c :: d :: cs) =
      if jsWS c then
        (if jsWS d then collapseWs (d :: cs) else '_' :: collapseWs (d :: cs))
      else c :: collapseWs (d :: cs) := rfl

/-- Whitespace-run collapsing is the identity on whitespace-free lists. -/
theorem collapseWs_eq_self (l : List Char) (h : ∀ c ∈ l, jsWS c = false) :
    collapseWs l = l := by
  induction l with
  | nil => rfl
  | cons c cs ih =>
    have hc : jsWS c = false := h c (List.mem_cons_self _ _)
    have hcs : ∀ x ∈ cs, jsWS x = false := fun x hx => h x (List.mem_cons_of_mem c hx)
    cases cs with
    | nil => rw [collapseWs_singleton, if_neg (by simp [hc])]
    | cons d ds => rw [collapseWs_cons₂, if_neg (by simp [hc]), ih hcs]

/-- On a whitespace-free string the normalization chain is just the
character-wise lowercase map. -/
theorem normalizeHeader_of_plain (s : String) (h : ∀ c ∈ s.toList, jsWS c = false) :
    normalizeHeader s = String.mk (s.toList.map jsToLower) := by
  rw [normalizeHeader, trimEnds_eq_self _ h, collapseWs_eq_self]
  intro c hc
  rcases List.mem_map.mp hc with ⟨x, hx, rfl⟩
  rw [jsWS_jsToLower]
  exact h x hx

/-- A packed character list is the empty string iff the list is empty. -/
theorem string_mk_eq_empty_iff (l : List Char) : String.mk l = "" ↔ l = [] := by
  constructor
  · intro h
    exact congrArg String.toList h
  · rintro rfl
    rfl

/-- The nonemptiness test the source filters apply, computed on the
packed character list. -/
theorem bne_empty_mk (l : List Char) : (String.mk l != "") = !(l.isEmpty) := by
  cases l with
  | nil => rfl
  | cons c cs => rfl

/-- Claim C6 core: header normalization and filtering keep exactly as
many entries as token filtering, because a token is whitespace-free and
its normalization is empty only when the token itself is. -/
theorem lineHeaders_length (line : String) :
    (lineHeaders line).length = (lineValues line).length := by
  rw [lineHeaders, lineValues, splitWs, List.map_map, List.filter_map, List.filter_map,
    List.length_map, List.length_map]
  refine congrArg List.length (List.filter_congr ?_)
  intro f hf
  have hplain : ∀ c ∈ (String.mk f).toList, jsWS c = false :=
    fun c hc => mem_splitRuns jsWS line.toList f hf c hc
  simp only [Function.comp_apply]
  rw [normalizeHeader_of_plain _ hplain, bne_empty_mk, bne_empty_mk]
  cases f with
  | nil => rfl
  | cons c cs => rfl

/-- A non-blank line has at least one token. -/
theorem lineValues_ne_nil (line : String) (hb : isBlank line = false) :
    lineValues line ≠ [] := by
  have hex : ∃ c ∈ line.toList, jsWS c = false := by
    by_contra hall
    push_neg at hall
    have hall' : ∀ c ∈ line.toList, jsWS c = true := by
      intro c hc
      cases hws : jsWS c with
      | false => exact absurd hws (hall c hc)
      | true => rfl
    rw [isBlank, List.all_eq_true.mpr hall'] at hb
    exact Bool.noConfusion hb
  rcases splitRuns_exists_ne_nil jsWS line.toList hex with ⟨f, hf, hne⟩
  refine List.ne_nil_of_mem (a := String.mk f) ?_
  rw [lineValues, splitWs, List.filter_map]
  refine List.mem_map.mpr ⟨f, ?_, rfl⟩
  refine List.mem_filter.mpr ⟨hf, ?_⟩
  simp only [Function.comp_apply]
  rw [bne_empty_mk]
  simpa using hne

/-- Every token of a line is a non-empty string. -/
theorem lineValues_mem_ne (line : String) (v : String) (hv : v ∈ lineValues line) :
    v ≠ "" := by
  rw [lineValues] at hv
  have := (List.mem_filter.mp hv).2
  simpa using this

/-- A non-blank line yields at least one normalized header key. -/
theorem lineHeaders_ne_nil (line : String) (hb : isBlank line = false) :
    lineHeaders line ≠ [] := by
  intro hnil
  have := lineHeaders_length line
  rw [hnil] at this
  exact lineValues_ne_nil line hb (List.length_eq_zero.mp this.symm)

/-- Key membership of a built row: the keys written by the loop are
exactly the keys already present plus the headers processed. -/
theorem mem_keys_buildRowAux (vs : List String) (hs : List String) :
    ∀ (i : Nat) (o : JsObj) (j : String),
      j ∈ (buildRowAux vs hs i o).map Prod.fst ↔ j ∈ o.map Prod.fst ∨ j ∈ hs := by
  induction hs with
  | nil =>
    intro i o j
    simp [buildRowAux]
  | cons h hs ih =>
    intro i o j
    rw [buildRowAux, ih, mem_keys_objSet]
    simp only [List.mem_cons]
    tauto

/-- The keys of the proof-side row description are the headers. -/
theorem keys_rowOf (vs : List String) (hs : List String) :
    ∀ i, (rowOf vs hs i).map Prod.fst = hs := by
  induction hs with
  | nil => intro i; rfl
  | cons h hs ih =>
    intro i
    rw [rowOf, List.map_cons, ih]

/-- With pairwise-distinct headers none of which is already a key of the
accumulator, the row-building loop just appends one pair per header. -/
theorem buildRowAux_eq_rowOf (vs : List String) (hs : List String) :
    ∀ (i : Nat) (o : JsObj), hs.Nodup → (∀ x ∈ hs, x ∉ o.map Prod.fst) →
      buildRowAux vs hs i o = o ++ rowOf vs hs i := by
  induction hs with
  | nil =>
    intro i o _ _
    simp [buildRowAux, rowOf]
  | cons h hs ih =>
    intro i o hnd hdisj
    have hset : objSet o h (vs.getD i "") = o ++ [(h, vs.getD i "")] :=
      objSet_not_mem o h _ (hdisj h (List.mem_cons_self _ _))
    have hdisj' : ∀ x ∈ hs, x ∉ (o ++ [(h, vs.getD i "")]).map Prod.fst := by
      intro x hx hmem
      rw [List.map_append] at hmem
      rcases List.mem_append.mp hmem with hm | hm
      · exact hdisj x (List.mem_cons_of_mem h hx) hm
      · have hxh : x = h := by simpa using hm
        exact (List.nodup_cons.mp hnd).1 (hxh ▸ hx)
    rw [buildRowAux, hset, ih (i + 1) _ (List.nodup_cons.mp hnd).2 hdisj',
      List.append_assoc]
    rfl

/-- Looking up header number i in the row description of distinct
headers yields token number n + i (or the empty-string default). -/
theorem objGet_rowOf (vs : List String) (hs : List String) :
    ∀ (n i : Nat) (hi : i < hs.length), hs.Nodup →
      objGet (rowOf vs hs n) (hs.get ⟨i, hi⟩) = some (vs.getD (n + i) "") := by
  induction hs with
  | nil =>
    intro n i hi
    simp at hi
  | cons h hs ih =>
    intro n i hi hnd
    cases i with
    | zero =>
      show objGet ((h, vs.getD n "") :: rowOf vs hs (n + 1)) h = some (vs.getD (n + 0) "")
      rw [objGet, List.find?_cons_of_pos _ (by simp)]
      simp
    | succ j =>
      have hj : j < hs.length := Nat.lt_of_succ_lt_succ hi
      show objGet ((h, vs.getD n "") :: rowOf vs hs (n + 1)) (hs.get ⟨j, hj⟩)
        = some (vs.getD (n + (j + 1)) "")
      have hne : (h == hs.get ⟨j, hj⟩) = false := by
        have hmem : hs.get ⟨j, hj⟩ ∈ hs := List.get_mem hs j hj
        have : h ≠ hs.get ⟨j, hj⟩ := fun e => (List.nodup_cons.mp hnd).1 (e ▸ hmem)
        simpa using this
      rw [objGet, List.find?_cons_of_neg _ (by simpa using hne)]
      have := ih (n + 1) j hj (List.nodup_cons.mp hnd).2
      rw [objGet] at this
      rw [this]
      have harith : n + 1 + j = n + (j + 1) := by omega
      rw [harith]

/-- Tokens beyond the header count have no effect: the loop reads the
token list only at indices below i plus the header count. -/
theorem buildRowAux_take (vs : List String) (hs : List String) :
    ∀ (i : Nat) (o : JsObj) (m : Nat), i + hs.length ≤ m →
      buildRowAux vs hs i o = buildRowAux (vs.take m) hs i o := by
  induction hs with
  | nil =>
    intro i o m _
    rfl
  | cons h hs ih =>
    intro i o m hm
    have hlen : i + (hs.length + 1) ≤ m := by simpa using hm
    have hi : i < m := by omega
    have hd : (vs.take m).getD i "" = vs.getD i "" := by
      rw [List.getD_eq_getElem?_getD, List.getD_eq_getElem?_getD, List.getElem?_take,
        if_pos hi]
    rw [buildRowAux, buildRowAux, hd]
    exact ih (i + 1) _ m (by omega)

/-- With pairwise-distinct headers, a built row is its description. -/
theorem buildRow_eq_rowOf (headers values : List String) (hnd : headers.Nodup) :
    buildRow headers values = rowOf values headers 0 := by
  rw [buildRow, buildRowAux_eq_rowOf values headers 0 [] hnd (by simp)]
  rfl

/-- A member of the built row list is a built row of some line. -/
theorem mem_buildRows (headers : List String) (dataLines : List String) (r : JsObj)
    (hr : r ∈ buildRows headers dataLines) :
    ∃ line, r = buildRow headers (lineValues line) := by
  rw [buildRows] at hr
  rcases List.mem_filter.mp hr with ⟨hm, _⟩
  rcases List.mem_map.mp hm with ⟨line, _, rfl⟩
  exact ⟨line, rfl⟩

/-- Inversion of a successful processText run. -/
theorem processText_some (text : String) (headers : List String) (rows : List JsObj)
    (h : processText text = some (headers, rows)) :
    ∃ first rest, nonBlankLines text = first :: rest
      ∧ headers = lineHeaders first ∧ rows = buildRows (lineHeaders first) rest := by
  unfold processText at h
  rcases hn : nonBlankLines text with _ | ⟨first, rest⟩ <;> rw [hn] at h
  · exact absurd h (by simp)
  · simp only [Option.some.injEq, Prod.mk.injEq] at h
    exact ⟨first, rest, rfl, h.1.symm, h.2.symm⟩

/-- With distinct headers the stored key list is the header list. -/
theorem keys_buildRow_nodup (headers values : List String) (hnd : headers.Nodup) :
    (buildRow headers values).map Prod.fst = headers := by
  rw [buildRow_eq_rowOf _ _ hnd, keys_rowOf]

/-- With distinct, non-numeric headers, Object.keys of a built row is
the header list in its original order. -/
theorem objectKeys_buildRow (headers values : List String) (hnd : headers.Nodup)
    (hidx : ∀ k ∈ headers, isArrayIndexKey k = false) :
    objectKeys (buildRow headers values) = headers := by
  rw [objectKeys, keys_buildRow_nodup headers values hnd]
  have h1 : headers.filter isArrayIndexKey = [] :=
    List.filter_eq_nil_iff.mpr (fun k hk => by simp [hidx k hk])
  have h2 : headers.filter (fun k => !(isArrayIndexKey k)) = headers :=
    List.filter_eq_self.mpr (fun k hk => by simp [hidx k hk])
  rw [h1, h2]
  rfl

/-- Flattening a list of singletons is the identity. -/
theorem flatten_map_singleton {α : Type} (l : List α) :
    (l.map (fun a => [a])).flatten = l := by
  induction l with
  | nil => rfl
  | cons a l ih => simp [ih]

/-- A plainly alphanumeric character passes JSON escaping unchanged. -/
theorem jsonEscapeChar_plain (c : Char) (h : plainAlnum c = true) :
    jsonEscapeChar c = [c] := by
  have hn : (97 ≤ c.toNat ∧ c.toNat ≤ 122) ∨ (65 ≤ c.toNat ∧ c.toNat ≤ 90)
      ∨ (48 ≤ c.toNat ∧ c.toNat ≤ 57) := by
    unfold plainAlnum at h
    simp only [Bool.or_eq_true, Bool.and_eq_true, decide_eq_true_eq] at h
    tauto
  have hne : ∀ (d : Char) (m : Nat), d.toNat = m → c.toNat ≠ m → ¬ (c = d) := by
    intro d m hd hm e
    exact hm (by rw [e, hd])
  rw [jsonEscapeChar,
    if_neg (hne '"' 34 rfl (by omega)),
    if_neg (hne '\\' 92 rfl (by omega)),
    if_neg (hne '\x08' 8 rfl (by omega)),
    if_neg (hne '\x0c' 12 rfl (by omega)),
    if_neg (hne '\n' 10 rfl (by omega)),
    if_neg (hne '\r' 13 rfl (by omega)),
    if_neg (hne '\t' 9 rfl (by omega)),
    if_neg (show ¬ c.toNat < 32 by omega)]

/-- JSON.stringify of a plainly alphanumeric string just wraps it in
double quotes. -/
theorem jsonStringify_plain (s : String) (h : ∀ c ∈ s.toList, plainAlnum c = true) :
    jsonStringify s = String.mk ('"' :: (s.toList ++ ['"'])) := by
  have hmap : s.toList.map jsonEscapeChar = s.toList.map (fun c => [c]) :=
    List.map_congr_left (fun c hc => jsonEscapeChar_plain c (h c hc))
  rw [jsonStringify, hmap, flatten_map_singleton]

/-- Characters of a JSON-stringified plain string: the quote or one of
the original characters. -/
theorem mem_jsonStringify_plain (v : String) (hp : ∀ c ∈ v.toList, plainAlnum c = true)
    (c : Char) (hc : c ∈ (jsonStringify v).toList) : c = '"' ∨ plainAlnum c = true := by
  rw [jsonStringify_plain v hp] at hc
  have hc' : c ∈ ('"' :: (v.toList ++ ['"'])) := hc
  rcases List.mem_cons.mp hc' with rfl | hc2
  · exact Or.inl rfl
  · rcases List.mem_append.mp hc2 with h3 | h3
    · exact Or.inr (hp c h3)
    · exact Or.inl (by simpa using h3)

/-- Stripping the quotes from a quote-wrapped character list recovers
the list. -/
theorem stripQuotes_quoted (l : List Char) :
    stripQuotes (String.mk ('"' :: (l ++ ['"']))) = String.mk l := by
  show (if ('"' : Char) = '"' ∧ (l ++ ['"']).getLast? = some '"' then
      String.mk (l ++ ['"']).dropLast
    else String.mk ('"' :: (l ++ ['"']))) = String.mk l
  rw [if_pos ⟨rfl, List.getLast?_concat l⟩, List.dropLast_concat]

/-- Every value the export reads out of a record with plainly
alphanumeric values is itself plainly alphanumeric (a missing key reads
as the empty string). -/
theorem objGetOr_plain (r : JsObj) (k : String)
    (h : ∀ p ∈ r, ∀ c ∈ (Prod.snd p).toList, plainAlnum c = true) (c : Char)
    (hc : c ∈ (objGetOr r k).toList) : plainAlnum c = true := by
  rw [objGetOr, objGet] at hc
  rcases hf : r.find? (fun p => p.1 == k) with _ | p
  · rw [hf] at hc
    simp at hc
  · rw [hf] at hc
    exact h p (List.mem_of_find?_eq_some hf) c (by simpa using hc)

/-- Unpacking then repacking strings is the identity. -/
theorem map_mk_toList (l : List String) : (l.map String.toList).map String.mk = l := by
  rw [List.map_map]
  have h : (String.mk ∘ String.toList) = id := funext (fun s => rfl)
  rw [h, List.map_id]

/-- Splitting a join on the separator recovers the fields, provided no
field contains the separator. -/
theorem splitChar_jsJoin (sep : Char) (fields : List String) (hne : fields ≠ [])
    (h : ∀ f ∈ fields, ∀ c ∈ f.toList, c ≠ sep) :
    (splitChar sep (jsJoin sep fields).toList).map String.mk = fields := by
  have h1 : (jsJoin sep fields).toList = joinSep sep (fields.map String.toList) := rfl
  have h2 : ∀ f ∈ fields.map String.toList, sep ∉ f := by
    intro f hf hmem
    rcases List.mem_map.mp hf with ⟨l, hl, rfl⟩
    exact h l hl sep hmem rfl
  rw [h1, splitChar_joinSep sep _ (by simpa using hne) h2, map_mk_toList]

/-- A character of a join is the separator or a field character. -/
theorem mem_toList_jsJoin (sep : Char) (fields : List String) (c : Char)
    (hc : c ∈ (jsJoin sep fields).toList) : c = sep ∨ ∃ f ∈ fields, c ∈ f.toList := by
  have h1 : (jsJoin sep fields).toList = joinSep sep (fields.map String.toList) := rfl
  rw [h1] at hc
  rcases mem_joinSep sep _ c hc with h | ⟨f, hf, hcf⟩
  · exact Or.inl h
  · rcases List.mem_map.mp hf with ⟨l, hl, rfl⟩
    exact Or.inr ⟨l, hl, hcf⟩

/-- Claim C1: the claim holds in the spec and fails in the code. On the
empty RawText, and on RawText whose every line is whitespace-only, the
line list is empty, so the source dereferences lines[0] as undefined and
lines[0].split throws a TypeError instead of yielding the empty Table;
the error branch of the embedding (none) is taken. -/
theorem c1_blank_input_throws :
    processText "" = none ∧ processText "   \n \t " = none :=
  ⟨rfl, rfl⟩

/-- Claim C2, counterexample: the source quotes with JSON.stringify, so
an embedded double quote is escaped with a backslash, not by doubling.
Exporting a table whose single value is the two-character string with a
trailing double quote yields a backslash-escaped field, and the claimed
doubled-quote field differs from the actual one; a second input shows
the header order may also be rearranged, numeric-looking keys first. -/
theorem c2_quote_doubling_false :
    exportToCSV (some [[("k", "3\"")]]) = ExportResult.payload "k\n\"3\\\"\""
      ∧ ("\"3\\\"\"" : String) ≠ "\"3\"\"\""
      ∧ exportToCSV (some [[("year", "x"), ("2023", "y")]])
          = ExportResult.payload "2023,year\n\"y\",\"x\"" := by
  refine ⟨rfl, by decide, rfl⟩

/-- Claim C2, amended: every value is quoted by JSON.stringify string
quoting, which preserves an embedded comma inside the quotes and escapes
an embedded double quote with a backslash and an embedded newline as a
two-character escape, so commas, quotes and newlines in values never
corrupt the line/field structure of the payload. -/
theorem c2_json_quoting :
    exportToCSV (some [[("h", "A,B"), ("k", "3\"")]])
        = ExportResult.payload "h,k\n\"A,B\",\"3\\\"\""
      ∧ jsonStringify "A,B" = "\"A,B\""
      ∧ jsonStringify "3\"" = "\"3\\\"\""
      ∧ jsonStringify "a\nb" = "\"a\\nb\"" :=
  ⟨rfl, rfl, rfl, rfl⟩

/-- Claim C3: export on an existing table with zero records fails with
an explicit error signal (the TypeError thrown by Object.keys on the
undefined first element) and produces no payload. -/
theorem c3_empty_table_export_fails :
    exportToCSV (some []) = ExportResult.typeError
      ∧ ∀ s, exportToCSV (some []) ≠ ExportResult.payload s := by
  exact ⟨rfl, fun s h => ExportResult.noConfusion h⟩

/-- Claim C4, counterexample: with duplicate normalized header keys the
record does not map HeaderKeys[0] to the line's first token: the later
positional write to the same key overwrites it, so the record maps the
key to the second token, not the first. -/
theorem c4_dup_headers_overwrite :
    processText "A a\nx y" = some (["a", "a"], [[("a", "y")]])
      ∧ objGetOr [("a", "y")] "a" ≠ (lineValues "x y").getD 0 "" := by
  refine ⟨rfl, by decide⟩

/-- Claim C4, amended: provided the HeaderKeys are pairwise distinct,
the built Record maps HeaderKeys[i] to the Line's i-th Token when it
exists and to the empty string otherwise, and Tokens at indices at or
beyond the HeaderKey count have no effect on the Record. -/
theorem c4_positional_mapping (headers values : List String) (hnd : headers.Nodup) :
    (∀ (i : Nat) (hi : i < headers.length),
        objGet (buildRow headers values) (headers.get ⟨i, hi⟩) = some (values.getD i ""))
      ∧ buildRow headers values = buildRow headers (values.take headers.length) := by
  constructor
  · intro i hi
    rw [buildRow_eq_rowOf headers values hnd]
    simpa using objGet_rowOf values headers 0 i hi hnd
  · rw [buildRow, buildRow]
    exact buildRowAux_take values headers 0 [] headers.length (by omega)

/-- Concrete instance of claim C4's amended theorem: with distinct
headers and a short token list, the missing trailing key reads as the
empty string and extra tokens are discarded. -/
theorem c4_positional_mapping_witness :
    (["a", "b"] : List String).Nodup
      ∧ objGet (buildRow ["a", "b"] ["x"]) (["a", "b"].get ⟨1, by decide⟩)
          = some (["x"].getD 1 "")
      ∧ buildRow ["a", "b"] ["x"] = buildRow ["a", "b"] (["x"].take (["a", "b"].length)) := by
  refine ⟨by decide, ?_, ?_⟩
  · exact (c4_positional_mapping ["a", "b"] ["x"] (by decide)).1 1 (by decide)
  · exact (c4_positional_mapping ["a", "b"] ["x"] (by decide)).2

/-- Claim C5: every record of a constructed table has exactly the
header keys as its key set (set equality), however many tokens the
record's original line had. -/
theorem c5_record_keys (text : String) (headers : List String) (rows : List JsObj)
    (h : processText text = some (headers, rows)) :
    ∀ r ∈ rows, ∀ k, k ∈ r.map Prod.fst ↔ k ∈ headers := by
  obtain ⟨first, rest, _, rfl, rfl⟩ := processText_some text headers rows h
  intro r hr k
  obtain ⟨line, rfl⟩ := mem_buildRows _ _ _ hr
  rw [buildRow, mem_keys_buildRowAux]
  simp

/-- Concrete instance of claim C5's theorem on a two-column table. -/
theorem c5_record_keys_witness :
    ("a" ∈ ([("a", "x"), ("b", "y")] : JsObj).map Prod.fst ↔ "a" ∈ ["a", "b"])
      ∧ ("zz" ∈ ([("a", "x"), ("b", "y")] : JsObj).map Prod.fst ↔ "zz" ∈ ["a", "b"]) := by
  have h := c5_record_keys "A B\nx y" ["a", "b"] [[("a", "x"), ("b", "y")]] rfl
  exact ⟨h _ (List.mem_cons_self _ _) "a", h _ (List.mem_cons_self _ _) "zz"⟩

/-- Claim C6: for a RawText with at least two non-blank lines, the
HeaderKey count of the resulting table equals the Token count of the
first non-blank line (normalization never empties a token, so the
positional count survives the filter). -/
theorem c6_header_count (text first : String) (rest : List String)
    (h : nonBlankLines text = first :: rest) (_h2 : rest ≠ []) :
    processText text = some (lineHeaders first, buildRows (lineHeaders first) rest)
      ∧ (lineHeaders first).length = (lineValues first).length := by
  constructor
  · unfold processText
    rw [h]
  · exact lineHeaders_length first

/-- Concrete instance of claim C6's theorem on a two-line input. -/
theorem c6_header_count_witness :
    processText "A B\nx y" = some (lineHeaders "A B", buildRows (lineHeaders "A B") ["x y"])
      ∧ (lineHeaders "A B").length = (lineValues "A B").length :=
  c6_header_count "A B\nx y" "A B" ["x y"] rfl (by decide)

/-- Claim C9, amended: for a RawText with at least one non-blank line
the HeaderKey sequence is non-empty, and provided the HeaderKeys are
pairwise distinct, every non-blank line after the first produces a
retained Record (its first value is a non-empty token), so the row count
equals the number of non-blank lines minus one. -/
theorem c9_rows_retained (text first : String) (rest : List String)
    (h : nonBlankLines text = first :: rest) :
    processText text = some (lineHeaders first, buildRows (lineHeaders first) rest)
      ∧ lineHeaders first ≠ []
      ∧ ((lineHeaders first).Nodup →
          (buildRows (lineHeaders first) rest).length = rest.length) := by
  have hfirst : isBlank first = false := by
    have hm : first ∈ nonBlankLines text := h ▸ List.mem_cons_self first rest
    rw [nonBlankLines] at hm
    have := (List.mem_filter.mp hm).2
    simpa using this
  refine ⟨?_, lineHeaders_ne_nil first hfirst, ?_⟩
  · unfold processText
    rw [h]
  · intro hnd
    rw [buildRows]
    have hrest : rest.filter (fun l => !(isBlank l)) = rest := by
      refine List.filter_eq_self.mpr ?_
      intro l hl
      have hm : l ∈ nonBlankLines text := h ▸ List.mem_cons_of_mem first hl
      rw [nonBlankLines] at hm
      exact (List.mem_filter.mp hm).2
    rw [hrest]
    have hall : ∀ r ∈ rest.map (fun line => buildRow (lineHeaders first) (lineValues line)),
        ((r.map Prod.snd).any (fun v => v != "")) = true := by
      intro r hr
      rcases List.mem_map.mp hr with ⟨line, hline, rfl⟩
      have hlineb : isBlank line = false := by
        have hm : line ∈ nonBlankLines text := h ▸ List.mem_cons_of_mem first hline
        rw [nonBlankLines] at hm
        have := (List.mem_filter.mp hm).2
        simpa using this
      rw [buildRow_eq_rowOf _ _ hnd]
      rcases hh : lineHeaders first with _ | ⟨h0, hs'⟩
      · exact absurd hh (lineHeaders_ne_nil first hfirst)
      · rw [rowOf, List.map_cons, List.any_cons]
        rcases hv : lineValues line with _ | ⟨v0, vs'⟩
        · exact absurd hv (lineValues_ne_nil line hlineb)
        · have hv0 : v0 ≠ "" :=
            lineValues_mem_ne line v0 (by rw [hv]; exact List.mem_cons_self _ _)
          simp [hv0]
    rw [List.filter_eq_self.mpr hall, List.length_map]

/-- Concrete instance of claim C9's amended theorem: a two-column,
one-data-line input keeps its single row. -/
theorem c9_rows_retained_witness :
    processText "A B\nx y" = some (lineHeaders "A B", buildRows (lineHeaders "A B") ["x y"])
      ∧ lineHeaders "A B" ≠ []
      ∧ (buildRows (lineHeaders "A B") ["x y"]).length = 1 := by
  have h := c9_rows_retained "A B\nx y" "A B" ["x y"] rfl
  exact ⟨h.1, h.2.1, h.2.2 (by decide)⟩

/-- Claim C8, counterexample: with duplicate normalized header keys the
exported header line lists the deduplicated object keys, not the full
HeaderKey sequence joined by commas. -/
theorem c8_dup_headers_export :
    processText "T t\nu v" = some (["t", "t"], [[("t", "v")]])
      ∧ exportToCSV (some [[("t", "v")]]) = ExportResult.payload "t\n\"v\""
      ∧ jsJoin ',' ["t", "t"] = "t,t"
      ∧ ("t\n\"v\"" : String) ≠ "t,t\n\"v\"" := by
  refine ⟨rfl, rfl, rfl, by decide⟩

/-- Claim C9, counterexample: with duplicate normalized header keys a
non-blank data line can produce an all-empty record that is dropped, so
the row count can fall short of the non-blank line count minus one. Here
the second write to the duplicated key stores the missing-token default,
erasing the non-empty first token. -/
theorem c9_dup_headers_drop :
    processText "B b\nz" = some (["b", "b"], [])
      ∧ (nonBlankLines "B b\nz").length = 2
      ∧ ([] : List JsObj).length ≠ 2 - 1 := by
  refine ⟨rfl, rfl, by decide⟩

/-- Claim C7: for a table with at least one record and at least one
column whose stored values are all plainly alphanumeric (and whose
column keys, being tokens, contain no newline), exporting and then
re-tokenizing the CSV payload reproduces the table's value matrix
exactly. -/
theorem c7_export_roundtrip (r0 : JsObj) (rest' : List JsObj)
    (hk0 : objectKeys r0 ≠ [])
    (hkn : ∀ k ∈ objectKeys r0, ∀ c ∈ k.toList, c ≠ '\n')
    (hv : ∀ r ∈ r0 :: rest', ∀ p ∈ r, ∀ c ∈ (Prod.snd p).toList, plainAlnum c = true) :
    exportToCSV (some (r0 :: rest')) = ExportResult.payload (csvContent r0 rest')
      ∧ retokenizeCSV (csvContent r0 rest')
          = (r0 :: rest').map (fun r => (objectKeys r0).map (fun k => objGetOr r k)) := by
  refine ⟨rfl, ?_⟩
  have hplainv : ∀ r ∈ r0 :: rest', ∀ k, ∀ c ∈ (objGetOr r k).toList, plainAlnum c = true :=
    fun r hr k => objGetOr_plain r k (hv r hr)
  have hfieldchar : ∀ r ∈ r0 :: rest',
      ∀ f ∈ (objectKeys r0).map (fun k => jsonStringify (objGetOr r k)),
        ∀ c ∈ f.toList, c ≠ ',' ∧ c ≠ '\n' := by
    intro r hr f hf c hc
    rcases List.mem_map.mp hf with ⟨k, _, rfl⟩
    rcases mem_jsonStringify_plain _ (hplainv r hr k) c hc with rfl | hpc
    · exact ⟨by decide, by decide⟩
    · constructor
      · intro e
        subst e
        exact absurd hpc (by decide)
      · intro e
        subst e
        exact absurd hpc (by decide)
  have hrowline : ∀ r ∈ r0 :: rest',
      ∀ c ∈ (jsJoin ',' ((objectKeys r0).map (fun k => jsonStringify (objGetOr r k)))).toList,
        c ≠ '\n' := by
    intro r hr c hc
    rcases mem_toList_jsJoin ',' _ c hc with rfl | ⟨f, hf, hcf⟩
    · decide
    · exact (hfieldchar r hr f hf c hcf).2
  have hheadline : ∀ c ∈ (jsJoin ',' (objectKeys r0)).toList, c ≠ '\n' := by
    intro c hc
    rcases mem_toList_jsJoin ',' _ c hc with rfl | ⟨k, hk, hck⟩
    · decide
    · exact hkn k hk c hck
  have hlinechars : ∀ f ∈ jsJoin ',' (objectKeys r0) ::
      (r0 :: rest').map (fun row =>
        jsJoin ',' ((objectKeys r0).map (fun h => jsonStringify (objGetOr row h)))),
      ∀ c ∈ f.toList, c ≠ '\n' := by
    intro l hl
    rcases List.mem_cons.mp hl with rfl | hl
    · exact hheadline
    · rcases List.mem_map.mp hl with ⟨r, hr, rfl⟩
      exact hrowline r hr
  rw [retokenizeCSV, csvContent,
    splitChar_jsJoin '\n' _ (by simp) hlinechars,
    List.drop_one, List.tail_cons, List.map_map]
  refine List.map_congr_left ?_
  intro r hr
  simp only [Function.comp_apply]
  rw [splitChar_jsJoin ',' _ (by simpa using hk0) (fun f hf c hc => (hfieldchar r hr f hf c hc).1),
    List.map_map]
  refine List.map_congr_left ?_
  intro k _
  simp only [Function.comp_apply]
  rw [jsonStringify_plain _ (hplainv r hr k), stripQuotes_quoted]
  rfl

/-- Concrete instance of claim C7's theorem: a one-column, two-record
table of alphanumeric values survives the export round-trip. -/
theorem c7_export_roundtrip_witness :
    exportToCSV (some [[("a", "x")], [("a", "y")]])
        = ExportResult.payload (csvContent [("a", "x")] [[("a", "y")]])
      ∧ retokenizeCSV (csvContent [("a", "x")] [[("a", "y")]])
          = ([[("a", "x")], [("a", "y")]] : List JsObj).map
              (fun r => (objectKeys [("a", "x")]).map (fun k => objGetOr r k)) :=
  c7_export_roundtrip [("a", "x")] [[("a", "y")]] (by decide) (by decide) (by decide)

/-- Claim C8, amended: provided the HeaderKeys are pairwise distinct and
none of them is an array-index-like numeric string, the exported header
line lists the HeaderKeys joined by commas in their left-to-right order
of appearance in the first line, and each row's values are emitted in
that same order. -/
theorem c8_export_preserves_order (text : String) (headers : List String) (r0 : JsObj)
    (rest' : List JsObj)
    (hp : processText text = some (headers, r0 :: rest'))
    (hnd : headers.Nodup)
    (hidx : ∀ k ∈ headers, isArrayIndexKey k = false) :
    exportToCSV (some (r0 :: rest')) =
      ExportResult.payload (jsJoin '\n'
        (jsJoin ',' headers ::
          (r0 :: rest').map (fun row =>
            jsJoin ',' (headers.map (fun k => jsonStringify (objGetOr row k)))))) := by
  obtain ⟨first, rest, _, rfl, hrows⟩ := processText_some text headers (r0 :: rest') hp
  have hr0 : r0 ∈ buildRows (lineHeaders first) rest := by
    rw [← hrows]
    exact List.mem_cons_self _ _
  obtain ⟨line, hline⟩ := mem_buildRows _ _ _ hr0
  show ExportResult.payload (csvContent r0 rest') = _
  rw [csvContent, hline, objectKeys_buildRow _ _ hnd hidx, ← hline]

/-- Concrete instance of claim C8's amended theorem on a two-column
table built from a two-line input. -/
theorem c8_export_preserves_order_witness :
    exportToCSV (some [[("a", "x"), ("b", "y")]]) =
      ExportResult.payload (jsJoin '\n'
        (jsJoin ',' ["a", "b"] ::
          ([[("a", "x"), ("b", "y")]] : List JsObj).map (fun row =>
            jsJoin ',' (["a", "b"].map (fun k => jsonStringify (objGetOr row k)))))) :=
  c8_export_preserves_order "A B\nx y" ["a", "b"] [("a", "x"), ("b", "y")] [] rfl
    (by decide) (by decide)

/-- Claim C10: invoking export before any successful OCR run, when no
table exists at all (extractedData is null), is a silent no-op: the
guard returns early, raising nothing and producing no payload. -/
theorem c10_no_table_noop :
    exportToCSV none = ExportResult.noop
      ∧ (∀ s, exportToCSV none ≠ ExportResult.payload s)
      ∧ exportToCSV none ≠ ExportResult.typeError := by
  exact ⟨rfl, fun s h => ExportResult.noConfusion h, fun h => ExportResult.noConfusion h⟩

end SpreadsheetOCR
